import Mathlib

/-!
Verification of the browser streaming/translation core of the healthcare
translation web app.

The embedded functions follow the client page components:
* `resampleTo16k`, `floatTo16BitPCM` — the audio resampler and PCM16 encoder
  (identical copies appear on the main page and the diagnostic page);
* `vadStep` — the energy-based voice-activity gate of the diagnostic page's
  `processor.onaudioprocess` callback;
* `translateAndEnhance` — the per-utterance translate → enhance → synthesize
  pipeline of the main page;
* `handleResult` — the inbound `TranscriptEvent` result handler of
  `ws.onmessage`;
* `handleReconnect` — the documented diagnostic reconnection policy.

Numbers: audio samples and sample rates are modelled as rationals (the
claims under scrutiny are exact arithmetic identities on the index and
scaling computations, which the JS doubles carry out exactly on the values
concerned); frame energies enter the VAD gate only through the comparison
`rms > VAD_THRESHOLD`, so a frame is modelled by that boolean.
-/

/-- JS `Math.round`: round half toward positive infinity. -/
def jsRound (q : ℚ) : ℤ := ⌊q + 1/2⌋

/-- JS `ToInteger` truncation toward zero, as performed by
`DataView.setInt16` on a non-integral argument. -/
def jsTrunc (q : ℚ) : ℤ := if q < 0 then ⌈q⌉ else ⌊q⌋

/-- `resampleTo16k(input, srcRate, dstRate)` from the page components:
pass through when the rates agree, otherwise linear interpolation at
source position `i * ratio`, reading `input[i1]` and `input[i2]` with
`i1 = floor(idx)` and `i2 = min(i1 + 1, input.length - 1)`.
`Int.toNat` renders JS `Math.floor` on the nonnegative positions the loop
produces; out-of-range reads default to 0 (the safety theorem shows the
loop never performs one on the rates the program uses). -/
def resampleTo16k (input : List ℚ) (srcRate dstRate : ℚ) : List ℚ :=
  if srcRate = dstRate then input
  else
    let ratio := srcRate / dstRate
    let newLen := (jsRound ((input.length : ℚ) / ratio)).toNat
    (List.range newLen).map (fun (i : ℕ) =>
      let idx : ℚ := (i : ℚ) * ratio
      let i1 : ℕ := (⌊idx⌋).toNat
      let i2 : ℕ := min (i1 + 1) (input.length - 1)
      let frac : ℚ := idx - (⌊idx⌋ : ℚ)
      input.getD i1 0 * (1 - frac) + input.getD i2 0 * frac)

/-- `Math.max(-1, Math.min(1, x))` — the clamp in `floatTo16BitPCM`. -/
def clampUnit (x : ℚ) : ℚ := max (-1) (min 1 x)

/-- One sample of `floatTo16BitPCM`: clamp, then scale by `0x8000` for
negative and `0x7fff` for non-negative samples, truncated to the integer
`DataView.setInt16` stores. -/
def pcm16Sample (x : ℚ) : ℤ :=
  let s := clampUnit x
  jsTrunc (if s < 0 then s * 0x8000 else s * 0x7fff)

/-- The two bytes `setInt16(_, v, true)` writes: little-endian order,
two's-complement 16-bit representation. -/
def int16LEBytes (v : ℤ) : List ℤ :=
  let w := v % 65536
  [w % 256, w / 256]

/-- `floatTo16BitPCM(input)`: the byte stream of the encoded samples. -/
def floatTo16BitPCM (input : List ℚ) : List ℤ :=
  input.foldr (fun x acc => int16LEBytes (pcm16Sample x) ++ acc) []

/-- C5. Resampling identity: when the source rate equals the target rate,
`resampleTo16k` returns the input block unchanged. -/
theorem resample_identity (input : List ℚ) (r : ℚ) :
    resampleTo16k input r r = input := by
  simp [resampleTo16k]

/-- C4. Resampling length: for positive rates the output block has
`round(inputLength * St / Sr)` samples, the pass-through case included. -/
theorem resample_length (input : List ℚ) (Sr St : ℚ) (hSr : 0 < Sr) (hSt : 0 < St) :
    (resampleTo16k input Sr St).length
      = (jsRound ((input.length : ℚ) * St / Sr)).toNat := by
  by_cases h : Sr = St
  · subst h
    have hpass : resampleTo16k input Sr Sr = input := by
      simp [resampleTo16k]
    have hlen : ((input.length : ℚ)) * Sr / Sr = (input.length : ℚ) := by
      field_simp
    have hround : jsRound ((input.length : ℚ)) = (input.length : ℤ) := by
      unfold jsRound
      rw [show ((input.length : ℚ) + 1/2) = ((input.length : ℤ) : ℚ) + (1/2 : ℚ) by
        push_cast; ring]
      rw [Int.floor_int_add]
      norm_num
    rw [hpass, hlen, hround, Int.toNat_natCast]
  · have hlen : (resampleTo16k input Sr St).length
        = (jsRound ((input.length : ℚ) / (Sr / St))).toNat := by
      simp only [resampleTo16k, if_neg h, List.length_map, List.length_range]
    rw [hlen, div_div_eq_mul_div]

/-- C10. Resampler index safety: with positive, distinct rates every source
read of the interpolation loop is in bounds (`i1` and
`i2 = min(i1 + 1, len - 1)` lie in `[0, len - 1]`), and the empty block
resamples to the empty block without any read. -/
theorem resample_index_safety (input : List ℚ) (Sr St : ℚ)
    (hSr : 0 < Sr) (hSt : 0 < St) (hne : Sr ≠ St) :
    (∀ i, i < (resampleTo16k input Sr St).length →
       0 < input.length ∧
       (⌊(i : ℚ) * (Sr / St)⌋).toNat ≤ input.length - 1 ∧
       min ((⌊(i : ℚ) * (Sr / St)⌋).toNat + 1) (input.length - 1) ≤ input.length - 1) ∧
    resampleTo16k [] Sr St = [] := by
  have hrpos : 0 < Sr / St := div_pos hSr hSt
  constructor
  · intro i hi
    have hlen : (resampleTo16k input Sr St).length
        = (jsRound ((input.length : ℚ) / (Sr / St))).toNat := by
      simp only [resampleTo16k, if_neg hne, List.length_map, List.length_range]
    rw [hlen] at hi
    have h1 : (i : ℤ) < jsRound ((input.length : ℚ) / (Sr / St)) :=
      Int.lt_toNat.mp hi
    have h2 : ((i : ℚ)) + 1 ≤ (input.length : ℚ) / (Sr / St) + 1/2 := by
      have h1' : (i : ℤ) + 1 ≤ jsRound ((input.length : ℚ) / (Sr / St)) :=
        Int.add_one_le_iff.mpr h1
      have := Int.le_floor.mp h1'
      push_cast at this
      linarith
    have hidx : (i : ℚ) * (Sr / St) < (input.length : ℚ) := by
      have hle : (i : ℚ) ≤ (input.length : ℚ) / (Sr / St) - 1/2 := by linarith
      have hmul : (i : ℚ) * (Sr / St)
          ≤ ((input.length : ℚ) / (Sr / St) - 1/2) * (Sr / St) :=
        mul_le_mul_of_nonneg_right hle hrpos.le
      have hcancel : ((input.length : ℚ) / (Sr / St)) * (Sr / St) = (input.length : ℚ) :=
        div_mul_cancel₀ _ hrpos.ne'
      calc (i : ℚ) * (Sr / St)
          ≤ ((input.length : ℚ) / (Sr / St) - 1/2) * (Sr / St) := hmul
        _ = (input.length : ℚ) - (Sr / St) / 2 := by rw [sub_mul, hcancel]; ring
        _ < (input.length : ℚ) := by linarith
    have hidx0 : (0 : ℚ) ≤ (i : ℚ) * (Sr / St) :=
      mul_nonneg (by positivity) hrpos.le
    have hlenpos : 0 < input.length := by
      rcases Nat.eq_zero_or_pos input.length with h0 | h0
      · rw [h0] at hidx
        norm_num at hidx
        linarith
      · exact h0
    have hfl0 : 0 ≤ ⌊(i : ℚ) * (Sr / St)⌋ := Int.floor_nonneg.mpr hidx0
    have hfl : ⌊(i : ℚ) * (Sr / St)⌋ < (input.length : ℤ) :=
      Int.floor_lt.mpr (by exact_mod_cast hidx)
    have htn : ((⌊(i : ℚ) * (Sr / St)⌋).toNat : ℤ) = ⌊(i : ℚ) * (Sr / St)⌋ :=
      Int.toNat_of_nonneg hfl0
    refine ⟨hlenpos, by omega, ?_⟩
    exact min_le_right _ _
  · simp only [resampleTo16k, if_neg hne, List.length_nil]
    norm_num [jsRound]

/-- Closed witness for `resample_length` at a concrete block and rates
(three samples, 48 kHz to 16 kHz). -/
theorem resample_length_witness :
    (resampleTo16k [1, 0, 1] 48000 16000).length
      = (jsRound (((([1, 0, 1] : List ℚ).length : ℚ)) * 16000 / 48000)).toNat :=
  resample_length [1, 0, 1] 48000 16000 (by norm_num) (by norm_num)

/-- Closed witness for `resample_index_safety` at the same concrete input. -/
theorem resample_index_safety_witness :
    (∀ i, i < (resampleTo16k [1, 0, 1] 48000 16000).length →
       0 < ([1, 0, 1] : List ℚ).length ∧
       (⌊(i : ℚ) * ((48000 : ℚ) / 16000)⌋).toNat ≤ ([1, 0, 1] : List ℚ).length - 1 ∧
       min ((⌊(i : ℚ) * ((48000 : ℚ) / 16000)⌋).toNat + 1)
         (([1, 0, 1] : List ℚ).length - 1) ≤ ([1, 0, 1] : List ℚ).length - 1) ∧
    resampleTo16k [] 48000 16000 = [] :=
  resample_index_safety [1, 0, 1] 48000 16000 (by norm_num) (by norm_num) (by norm_num)

/-- Truncation is the identity on integral values. -/
lemma jsTrunc_intCast (z : ℤ) : jsTrunc ((z : ℚ)) = z := by
  unfold jsTrunc
  split
  · exact Int.ceil_intCast z
  · exact Int.floor_intCast z

/-- The clamp is idempotent: a clamped sample is already in `[-1, 1]`. -/
lemma clampUnit_idem (x : ℚ) : clampUnit (clampUnit x) = clampUnit x := by
  have h1 : -1 ≤ clampUnit x := le_max_left _ _
  have h2 : clampUnit x ≤ 1 := max_le (by norm_num) (min_le_left _ _)
  rw [show clampUnit (clampUnit x) = max (-1) (min 1 (clampUnit x)) from rfl,
    min_eq_right h2, max_eq_right h1]

/-- C6. PCM16 encoding: each sample is clamped to `[-1, 1]` and scaled by
`0x8000` (negative) or `0x7fff` (non-negative); `1.0` encodes to `32767`,
`-1.0` to `-32768`, out-of-range inputs encode as the boundary they clamp
to, and the encoder emits the two little-endian bytes of each value. -/
theorem pcm_encoding (x : ℚ) :
    pcm16Sample x
        = jsTrunc (if clampUnit x < 0 then clampUnit x * 0x8000 else clampUnit x * 0x7fff) ∧
    pcm16Sample x = pcm16Sample (max (-1) (min 1 x)) ∧
    pcm16Sample 1 = 32767 ∧
    pcm16Sample (-1) = -32768 ∧
    (1 ≤ x → pcm16Sample x = pcm16Sample 1) ∧
    (x ≤ -1 → pcm16Sample x = pcm16Sample (-1)) ∧
    floatTo16BitPCM [x] = int16LEBytes (pcm16Sample x) := by
  have hone : clampUnit (1 : ℚ) = 1 := by unfold clampUnit; norm_num
  have hmone : clampUnit (-1 : ℚ) = -1 := by unfold clampUnit; norm_num
  refine ⟨rfl, ?_, ?_, ?_, ?_, ?_, ?_⟩
  · show pcm16Sample x = pcm16Sample (clampUnit x)
    simp only [pcm16Sample, clampUnit_idem]
  · simp only [pcm16Sample, hone]
    rw [if_neg (by norm_num : ¬ (1 : ℚ) < 0)]
    rw [show (1 : ℚ) * 0x7fff = ((32767 : ℤ) : ℚ) by norm_num]
    exact jsTrunc_intCast 32767
  · simp only [pcm16Sample, hmone]
    rw [if_pos (by norm_num : (-1 : ℚ) < 0)]
    rw [show (-1 : ℚ) * 0x8000 = ((-32768 : ℤ) : ℚ) by norm_num]
    exact jsTrunc_intCast (-32768)
  · intro h
    have hc : clampUnit x = 1 := by
      unfold clampUnit
      rw [min_eq_left h]
      norm_num
    simp only [pcm16Sample, hc, hone]
  · intro h
    have hc : clampUnit x = -1 := by
      unfold clampUnit
      rw [min_eq_right (le_trans h (by norm_num)), max_eq_left h]
    simp only [pcm16Sample, hc, hmone]
  · simp [floatTo16BitPCM]

/-- Closed witness for `pcm_encoding`: out-of-range samples `2` and `-2`
encode as the clamped boundary values. -/
theorem pcm_encoding_witness :
    (pcm16Sample 2 = pcm16Sample 1) ∧ (pcm16Sample (-2) = pcm16Sample (-1)) :=
  ⟨(pcm_encoding 2).2.2.2.2.1 (by norm_num),
   (pcm_encoding (-2)).2.2.2.2.2.1 (by norm_num)⟩

/-- The VAD state of the diagnostic page's capture callback:
`{isSpeech, silenceFrames, speechFrames}`. -/
structure VadState where
  isSpeech : Bool
  silenceFrames : ℕ
  speechFrames : ℕ

/-- One frame of the `processor.onaudioprocess` VAD logic. `above` stands
for the comparison `rms > VAD_THRESHOLD` on the frame's RMS energy.
In source order: counter update, send decision
(`isSpeech || silenceFrames <= MAX_SILENCE_PAD_FRAMES`, and the frame is
transmitted when it holds), then the end-of-utterance reset of `isSpeech`.
Returns the updated state and the send decision. -/
def vadStep (minSpeechFrames maxSilencePadFrames : ℕ) (s : VadState) (above : Bool) :
    VadState × Bool :=
  let s1 : VadState :=
    if above then
      let sp := s.speechFrames + 1
      { isSpeech := if s.isSpeech = false ∧ minSpeechFrames ≤ sp then true else s.isSpeech,
        silenceFrames := 0, speechFrames := sp }
    else
      { s with silenceFrames := s.silenceFrames + 1, speechFrames := 0 }
  let send := s1.isSpeech || decide (s1.silenceFrames ≤ maxSilencePadFrames)
  let s2 : VadState :=
    if s1.isSpeech = true ∧ maxSilencePadFrames < s1.silenceFrames then
      { s1 with isSpeech := false }
    else s1
  (s2, send)

/-- Run the VAD gate over a sequence of frames; returns the final state and
how many frames were admitted for transmission. -/
def vadRun (minSpeechFrames maxSilencePadFrames : ℕ) : VadState → List Bool → VadState × ℕ
  | s, [] => (s, 0)
  | s, f :: fs =>
    let r := vadStep minSpeechFrames maxSilencePadFrames s f
    let rest := vadRun minSpeechFrames maxSilencePadFrames r.1 fs
    (rest.1, (if r.2 then 1 else 0) + rest.2)

/-- The constant `MIN_SPEECH_FRAMES = 3` of the capture callback. -/
def MIN_SPEECH_FRAMES : ℕ := 3

/-- The constant `MAX_SILENCE_PAD_FRAMES = 6` of the capture callback. -/
def MAX_SILENCE_PAD_FRAMES : ℕ := 6

/-- A below-threshold frame from a non-speech state: counters update, no
state machinery fires. -/
lemma vadStep_false_false (m p j sp : ℕ) :
    vadStep m p ⟨false, j, sp⟩ false = (⟨false, j + 1, 0⟩, decide (j + 1 ≤ p)) := by
  simp [vadStep]

/-- A below-threshold frame during speech, inside the padding budget. -/
lemma vadStep_true_false_keep (m p j sp : ℕ) (h : j + 1 ≤ p) :
    vadStep m p ⟨true, j, sp⟩ false = (⟨true, j + 1, 0⟩, true) := by
  simp [vadStep]
  omega

/-- A below-threshold frame during speech that exhausts the padding budget:
the frame is still sent, and `isSpeech` resets afterwards. -/
lemma vadStep_true_false_reset (m p j sp : ℕ) (h : p < j + 1) :
    vadStep m p ⟨true, j, sp⟩ false = (⟨false, j + 1, 0⟩, true) := by
  simp [vadStep]
  omega

/-- Below-threshold frames never turn `isSpeech` on. -/
lemma vadRun_below_false (m p k : ℕ) : ∀ j sp : ℕ,
    (vadRun m p ⟨false, j, sp⟩ (List.replicate k false)).1.isSpeech = false := by
  induction k with
  | zero => intro j sp; simp [vadRun]
  | succ k ih =>
    intro j sp
    rw [List.replicate_succ]
    simp only [vadRun, vadStep_false_false]
    exact ih (j + 1) 0

/-- Once the silence counter is past the padding budget in a non-speech
state, no further below-threshold frame is admitted. -/
lemma vadRun_dead_count (m p k : ℕ) : ∀ j sp : ℕ, p ≤ j →
    (vadRun m p ⟨false, j, sp⟩ (List.replicate k false)).2 = 0 := by
  induction k with
  | zero => intro j sp _; simp [vadRun]
  | succ k ih =>
    intro j sp h
    rw [List.replicate_succ]
    simp only [vadRun, vadStep_false_false]
    have hns : ¬ (j + 1 ≤ p) := by omega
    simp [hns, ih (j + 1) 0 (by omega)]

/-- From a speech state with silence counter `j ≤ p`, feeding `k`
below-threshold frames admits `min k (p + 1 - j)` of them, and speech ends
exactly when the counter passes `p`. -/
lemma vadRun_pad (m p k : ℕ) : ∀ j sp : ℕ, j ≤ p →
    (vadRun m p ⟨true, j, sp⟩ (List.replicate k false)).2 = min k (p + 1 - j) ∧
    (vadRun m p ⟨true, j, sp⟩ (List.replicate k false)).1.isSpeech
      = decide (j + k ≤ p) := by
  induction k with
  | zero =>
    intro j sp h
    refine ⟨by simp [vadRun], ?_⟩
    simp only [vadRun]
    simp [h]
  | succ k ih =>
    intro j sp h
    rw [List.replicate_succ]
    by_cases hc : j + 1 ≤ p
    · obtain ⟨ih1, ih2⟩ := ih (j + 1) 0 hc
      simp only [vadRun, vadStep_true_false_keep m p j sp hc, ih1, ih2]
      constructor
      · rw [if_pos trivial]
        omega
      · exact decide_eq_decide.mpr (by omega)
    · have hreset := vadStep_true_false_reset m p j sp (by omega)
      simp only [vadRun, hreset, vadRun_dead_count m p k (j + 1) 0 (by omega),
        vadRun_below_false m p k (j + 1) 0]
      constructor
      · rw [if_pos trivial]
        omega
      · symm
        simp only [decide_eq_false_iff_not]
        omega

/-- C2 counterexample: with the code's constants (`MAX_SILENCE_PAD_FRAMES = 6`),
starting from `isSpeech = true, silenceFrameCount = 0`, a run of 8
below-threshold frames has `MAX_SILENCE_PAD_FRAMES + 1 = 7` frames admitted
for transmission (and `isSpeech` has reset to `false`), not exactly
`MAX_SILENCE_PAD_FRAMES` as the claim counts. -/
theorem vad_padding_cex :
    (vadRun MIN_SPEECH_FRAMES MAX_SILENCE_PAD_FRAMES ⟨true, 0, 0⟩
        (List.replicate 8 false)).2 = MAX_SILENCE_PAD_FRAMES + 1 ∧
    (vadRun MIN_SPEECH_FRAMES MAX_SILENCE_PAD_FRAMES ⟨true, 0, 0⟩
        (List.replicate 8 false)).1.isSpeech = false ∧
    MAX_SILENCE_PAD_FRAMES + 1 ≠ MAX_SILENCE_PAD_FRAMES := by
  refine ⟨by decide, by decide, by decide⟩

/-- C2 amended. VAD padding: from `isSpeech = true, silenceFrameCount = 0`,
feeding `k` below-threshold frames admits `min k (MAX_SILENCE_PAD_FRAMES + 1)`
of them for transmission — one more than the padding budget, because the
send decision precedes the reset, so the frame whose counter first exceeds
the threshold is itself transmitted — and `isSpeech` holds afterwards
exactly while `k ≤ MAX_SILENCE_PAD_FRAMES` (the reset fires during frame
`MAX_SILENCE_PAD_FRAMES + 1`). -/
theorem vad_padding_amended (m p sp k : ℕ) :
    (vadRun m p ⟨true, 0, sp⟩ (List.replicate k false)).2 = min k (p + 1) ∧
    (vadRun m p ⟨true, 0, sp⟩ (List.replicate k false)).1.isSpeech = decide (k ≤ p) := by
  have h := vadRun_pad m p k 0 sp (Nat.zero_le _)
  simpa using h

/-- C7. VAD debounce: when `MIN_SPEECH_FRAMES > 1`, a single above-threshold
frame followed by below-threshold frames never turns `isSpeech` on, at any
prefix of the run. -/
theorem vad_debounce (m p k j : ℕ) (hm : 1 < m) :
    (vadRun m p ⟨false, 0, 0⟩ ((true :: List.replicate k false).take j)).1.isSpeech
      = false := by
  cases j with
  | zero => simp [vadRun]
  | succ j' =>
    rw [List.take_succ_cons, List.take_replicate]
    have hstep : vadStep m p ⟨false, 0, 0⟩ true = (⟨false, 0, 1⟩, true) := by
      have hmle : ¬ (m ≤ 1) := by omega
      simp [vadStep, hmle]
    simp only [vadRun, hstep]
    exact vadRun_below_false m p (min j' k) 0 1

/-- Closed witness for `vad_debounce` at the code's constants. -/
theorem vad_debounce_witness :
    (vadRun MIN_SPEECH_FRAMES MAX_SILENCE_PAD_FRAMES ⟨false, 0, 0⟩
        ((true :: List.replicate 5 false).take 6)).1.isSpeech = false :=
  vad_debounce MIN_SPEECH_FRAMES MAX_SILENCE_PAD_FRAMES 5 6 (by decide)

/-- The outcome of the `/translate` request for one utterance: the `ok`
flag of the response and the `translatedText` field of its JSON body
(`none` when absent). -/
structure TranslateResp where
  ok : Bool
  translatedText : Option String
deriving DecidableEq

/-- The outcome of the `/enhance` request: the `ok` flag and the
`enhancedText` field of its JSON body (`none` when absent). -/
structure EnhanceResp where
  ok : Bool
  enhancedText : Option String
deriving DecidableEq

/-- `translateAndEnhance(text)` from the main page, as a function of the
two service responses. `some f` means the pipeline appends `f` to
`translations` and then requests speech synthesis of `f`
(`setTranslations(prev => [...prev, finalText]); await synthesizeSpeech(finalText)`);
`none` means the pipeline produced nothing for this utterance (translate
request failed — the thrown error is caught — or its body carried no
truthy `translatedText`). JS truthiness of a string field is rendered by
the `= ""` tests: an empty string is falsy. -/
def translateAndEnhance (tRes : TranslateResp) (eRes : EnhanceResp) : Option String :=
  if tRes.ok = false then none
  else
    match tRes.translatedText with
    | none => none
    | some t =>
      if t = "" then none
      else
        let finalText :=
          if eRes.ok then
            match eRes.enhancedText with
            | some e => if e = "" then t else e
            | none => t
          else t
        some finalText

/-- One decoded result of an inbound `TranscriptEvent`: its `IsPartial`
flag and the transcripts of its `Alternatives`. -/
structure TResult where
  IsPartial : Bool
  Alternatives : List String
deriving DecidableEq

/-- `result?.Alternatives?.[0]?.Transcript || ''`. -/
def transcriptOf (r : TResult) : String := r.Alternatives.headD ""

/-- The session's transcript-side state: `partialText`, the ordered
`finalTranscripts` and `translations` lists, plus the multiset of
dispatched-but-unfinished per-utterance pipelines (`void
translateAndEnhance(transcript)` calls in flight), recorded by their
source transcript in dispatch order. -/
structure SessionLists where
  partialText : String
  finalTranscripts : List String
  pendingPipelines : List String
  translations : List String
deriving DecidableEq

/-- JS `String.prototype.trim`: strip whitespace from both ends.
(Lean's own `String.trim` is extensionally the same but is defined by
well-founded recursion over byte positions, which blocks kernel
evaluation on concrete inputs.) -/
def jsTrim (s : String) : String :=
  String.mk (((s.data.dropWhile Char.isWhitespace).reverse.dropWhile
    Char.isWhitespace).reverse)

/-- The body of the `ws.onmessage` loop for one decoded result:
a partial result overwrites `partialText`; a final result with non-empty
trimmed text clears `partialText`, appends the transcript to
`finalTranscripts` and dispatches its pipeline fire-and-forget (recorded
as pending, without touching `translations`); any other result is a
no-op. -/
def handleResult (s : SessionLists) (r : TResult) : SessionLists :=
  let transcript := transcriptOf r
  if r.IsPartial then { s with partialText := transcript }
  else if jsTrim transcript ≠ "" then
    { s with partialText := "",
             finalTranscripts := s.finalTranscripts ++ [transcript],
             pendingPipelines := s.pendingPipelines ++ [transcript] }
  else s

/-- What the pipeline dispatched for transcript `t` will produce, given
the per-utterance service responses `tr` and `en`. -/
def pipelineOutput (tr : String → TranslateResp) (en : String → EnhanceResp)
    (t : String) : Option String :=
  translateAndEnhance (tr t) (en t)

/-- `f` was derived from transcript `t`: the pipeline run on `t` produces
exactly `f`. -/
def DerivedFrom (tr : String → TranslateResp) (en : String → EnhanceResp)
    (f t : String) : Prop :=
  pipelineOutput tr en t = some f

/-- One event-loop step of the session: either an inbound transcript
result is handled, or one of the in-flight pipelines (any of them — the
event loop imposes no completion order on concurrently running
`translateAndEnhance` calls) resolves, appending its result to
`translations` if it produced one. -/
inductive SessionStep (tr : String → TranslateResp) (en : String → EnhanceResp) :
    SessionLists → SessionLists → Prop where
  | inbound (s : SessionLists) (r : TResult) : SessionStep tr en s (handleResult s r)
  | completeSome (s : SessionLists) (P1 P2 : List String) (t f : String)
      (hp : s.pendingPipelines = P1 ++ t :: P2)
      (hf : pipelineOutput tr en t = some f) :
      SessionStep tr en s
        { s with pendingPipelines := P1 ++ P2,
                 translations := s.translations ++ [f] }
  | completeNone (s : SessionLists) (P1 P2 : List String) (t : String)
      (hp : s.pendingPipelines = P1 ++ t :: P2)
      (hf : pipelineOutput tr en t = none) :
      SessionStep tr en s { s with pendingPipelines := P1 ++ P2 }

/-- The session state at the start of a recording. -/
def initSession : SessionLists := ⟨"", [], [], []⟩

/-- States the session can reach under some interleaving of inbound
events and pipeline completions. -/
inductive SessionReachable (tr : String → TranslateResp) (en : String → EnhanceResp) :
    SessionLists → Prop where
  | init : SessionReachable tr en initSession
  | step {s s' : SessionLists} : SessionReachable tr en s →
      SessionStep tr en s s' → SessionReachable tr en s'

/-- A concrete translate service for the counterexample: every request
succeeds and prefixes the text with `T`. -/
def tr0 : String → TranslateResp := fun t => ⟨true, some ("T" ++ t)⟩

/-- A concrete enhance service for the counterexample: every request
fails, so each pipeline falls back to the basic translation. -/
def en0 : String → EnhanceResp := fun _ => ⟨false, none⟩

/-- The state reached when utterance `"b"`'s pipeline completes before
utterance `"a"`'s: `translations[0]` holds the translation of
`finalTranscripts[1]`. -/
def cexSession : SessionLists := ⟨"", ["a", "b"], ["a"], ["Tb"]⟩

/-- C1 counterexample: under the interleaving in which the second
utterance's pipeline completes first (translations are appended in
completion order), the session reaches a state where `translations[0]`
exists but was derived from `finalTranscripts[1] = "b"`, not from
`finalTranscripts[0] = "a"` — the pipeline run on `"a"` yields
`some "Ta" ≠ some "Tb"`. -/
theorem transcript_ordering_cex :
    SessionReachable tr0 en0 cexSession ∧
    cexSession.translations.getD 0 "" = "Tb" ∧
    cexSession.finalTranscripts.getD 0 "" = "a" ∧
    ¬ DerivedFrom tr0 en0 "Tb" "a" := by
  refine ⟨?_, rfl, rfl, ?_⟩
  · have h1 : SessionReachable tr0 en0 ⟨"", ["a"], ["a"], []⟩ := by
      have e : handleResult initSession ⟨false, ["a"]⟩
          = (⟨"", ["a"], ["a"], []⟩ : SessionLists) := by decide
      exact e ▸ SessionReachable.step SessionReachable.init
        (SessionStep.inbound initSession ⟨false, ["a"]⟩)
    have h2 : SessionReachable tr0 en0 ⟨"", ["a", "b"], ["a", "b"], []⟩ := by
      have e : handleResult ⟨"", ["a"], ["a"], []⟩ ⟨false, ["b"]⟩
          = (⟨"", ["a", "b"], ["a", "b"], []⟩ : SessionLists) := by decide
      exact e ▸ SessionReachable.step h1
        (SessionStep.inbound ⟨"", ["a"], ["a"], []⟩ ⟨false, ["b"]⟩)
    have hstep : SessionStep tr0 en0 ⟨"", ["a", "b"], ["a", "b"], []⟩ cexSession := by
      have := @SessionStep.completeSome tr0 en0 ⟨"", ["a", "b"], ["a", "b"], []⟩
        ["a"] [] "b" "Tb" rfl (by decide)
      simpa using this
    exact SessionReachable.step h2 hstep
  · intro h
    have hout : pipelineOutput tr0 en0 "a" = some "Ta" := by decide
    rw [DerivedFrom] at h
    rw [hout] at h
    simp at h

/-- The session steps restricted to the interleavings the claim's
invariant does hold under: pipelines complete in the order their source
transcripts were finalized, and each completing pipeline produced a
translation. -/
inductive OrderedStep (tr : String → TranslateResp) (en : String → EnhanceResp) :
    SessionLists → SessionLists → Prop where
  | inbound (s : SessionLists) (r : TResult) : OrderedStep tr en s (handleResult s r)
  | completeHead (s : SessionLists) (t f : String) (P2 : List String)
      (hp : s.pendingPipelines = t :: P2)
      (hf : pipelineOutput tr en t = some f) :
      OrderedStep tr en s
        { s with pendingPipelines := P2, translations := s.translations ++ [f] }

/-- Reachability under in-order, non-failing pipeline completion. -/
inductive OrderedReachable (tr : String → TranslateResp) (en : String → EnhanceResp) :
    SessionLists → Prop where
  | init : OrderedReachable tr en initSession
  | step {s s' : SessionLists} : OrderedReachable tr en s →
      OrderedStep tr en s s' → OrderedReachable tr en s'

/-- The inductive invariant behind the amended ordering claim: the
translated prefix of `finalTranscripts` is index-aligned with
`translations`, and the rest is exactly the pending-pipeline queue. -/
def PipelineInv (tr : String → TranslateResp) (en : String → EnhanceResp)
    (s : SessionLists) : Prop :=
  s.finalTranscripts.length = s.translations.length + s.pendingPipelines.length ∧
  s.finalTranscripts.drop s.translations.length = s.pendingPipelines ∧
  ∀ i, i < s.translations.length →
    pipelineOutput tr en (s.finalTranscripts.getD i "")
      = some (s.translations.getD i "")

lemma pipelineInv_init (tr : String → TranslateResp) (en : String → EnhanceResp) :
    PipelineInv tr en initSession := by
  refine ⟨rfl, rfl, ?_⟩
  intro i hi
  simp [initSession] at hi

lemma pipelineInv_handleResult (tr : String → TranslateResp) (en : String → EnhanceResp)
    (s : SessionLists) (r : TResult) (h : PipelineInv tr en s) :
    PipelineInv tr en (handleResult s r) := by
  obtain ⟨h1, h2, h3⟩ := h
  by_cases hp : r.IsPartial = true
  · simp only [handleResult, if_pos hp]
    exact ⟨h1, h2, h3⟩
  · by_cases ht : jsTrim (transcriptOf r) ≠ ""
    · simp only [handleResult, if_neg hp, if_pos ht]
      refine ⟨?_, ?_, ?_⟩
      · simp only [List.length_append, List.length_singleton]
        omega
      · have hle : s.translations.length ≤ s.finalTranscripts.length := by omega
        rw [List.drop_append_of_le_length hle, h2]
      · intro i hi
        dsimp only at hi ⊢
        have hif : i < s.finalTranscripts.length := by omega
        rw [List.getD_append _ _ _ _ hif]
        exact h3 i hi
    · simp only [handleResult, if_neg hp, if_neg ht]
      exact ⟨h1, h2, h3⟩

lemma pipelineInv_step (tr : String → TranslateResp) (en : String → EnhanceResp)
    {s s' : SessionLists} (hstep : OrderedStep tr en s s')
    (h : PipelineInv tr en s) : PipelineInv tr en s' := by
  cases hstep with
  | inbound r => exact pipelineInv_handleResult tr en s r h
  | completeHead t f P2 hp hf =>
    obtain ⟨h1, h2, h3⟩ := h
    refine ⟨?_, ?_, ?_⟩
    · simp only [List.length_append, List.length_singleton]
      rw [hp] at h1
      simp at h1
      omega
    · simp only [List.length_append, List.length_singleton]
      rw [← List.drop_drop, h2, hp]
      rfl
    · intro i hi
      simp only [List.length_append, List.length_singleton] at hi
      rcases Nat.lt_or_ge i s.translations.length with hlt | hge
      · rw [List.getD_append _ _ _ _ hlt]
        exact h3 i hlt
      · have hieq : i = s.translations.length := by omega
        subst hieq
        have hfT : s.finalTranscripts.getD s.translations.length "" = t := by
          have hq : s.finalTranscripts.get? s.translations.length = some t := by
            have hd := List.getElem?_drop s.finalTranscripts s.translations.length 0
            rw [h2, hp] at hd
            rw [List.get?_eq_getElem?]
            simpa using hd.symm
          have hrfl : s.finalTranscripts.getD s.translations.length ""
              = (s.finalTranscripts.get? s.translations.length).getD "" := rfl
          rw [hrfl, hq]
          rfl
        have hfF : (s.translations ++ [f]).getD s.translations.length "" = f := by
          rw [List.getD_append_right _ _ _ _ (le_refl _)]
          simp
        rw [hfT, hfF]
        exact hf

lemma pipelineInv_reachable (tr : String → TranslateResp) (en : String → EnhanceResp)
    {s : SessionLists} (h : OrderedReachable tr en s) : PipelineInv tr en s := by
  induction h with
  | init => exact pipelineInv_init tr en
  | step hr hs ih => exact pipelineInv_step tr en hs ih

/-- C1 amended. Transcript ordering: translations are appended in
pipeline-completion order, so the invariant `translations[i]` derived
from `finalTranscripts[i]` holds for the interleavings in which pipelines
complete in the order their transcripts were finalized and every
completing pipeline produced a translation; an out-of-order completion
(see the counterexample) breaks it. -/
theorem transcript_ordering_amended (tr : String → TranslateResp)
    (en : String → EnhanceResp) (s : SessionLists)
    (h : OrderedReachable tr en s) :
    ∀ i, i < s.translations.length →
      i < s.finalTranscripts.length ∧
      DerivedFrom tr en (s.translations.getD i "") (s.finalTranscripts.getD i "") := by
  obtain ⟨h1, h2, h3⟩ := pipelineInv_reachable tr en h
  intro i hi
  exact ⟨by omega, h3 i hi⟩

/-- An in-order session run: one final transcript `"a"`, whose pipeline
completes with `"Ta"` before anything else happens. -/
def witSession : SessionLists := ⟨"", ["a"], [], ["Ta"]⟩

lemma witSession_reachable : OrderedReachable tr0 en0 witSession := by
  have h1 : OrderedReachable tr0 en0 ⟨"", ["a"], ["a"], []⟩ := by
    have e : handleResult initSession ⟨false, ["a"]⟩
        = (⟨"", ["a"], ["a"], []⟩ : SessionLists) := by decide
    exact e ▸ OrderedReachable.step OrderedReachable.init
      (OrderedStep.inbound initSession ⟨false, ["a"]⟩)
  have hstep : OrderedStep tr0 en0 ⟨"", ["a"], ["a"], []⟩ witSession := by
    have := @OrderedStep.completeHead tr0 en0 ⟨"", ["a"], ["a"], []⟩
      "a" "Ta" [] rfl (by decide)
    simpa using this
  exact OrderedReachable.step h1 hstep

/-- Closed witness for `transcript_ordering_amended` on a concrete
in-order run. -/
theorem transcript_ordering_amended_witness :
    0 < witSession.finalTranscripts.length ∧
    DerivedFrom tr0 en0 (witSession.translations.getD 0 "")
      (witSession.finalTranscripts.getD 0 "") :=
  transcript_ordering_amended tr0 en0 witSession witSession_reachable 0 (by decide)

/-- C3. Enhancement-failure fallback: when the translate request
succeeds with a (truthy) `translatedText` `t` and the enhance request
fails or returns no usable `enhancedText`, the pipeline produces exactly
`t` — appended to `translations` and sent to speech synthesis — and `t`
is non-empty; the enhancement failure never aborts the utterance. -/
theorem enhancement_fallback (tRes : TranslateResp) (eRes : EnhanceResp) (t : String)
    (h1 : tRes.ok = true) (h2 : tRes.translatedText = some t) (h3 : t ≠ "")
    (h4 : eRes.ok = false ∨ eRes.enhancedText = none ∨ eRes.enhancedText = some "") :
    translateAndEnhance tRes eRes = some t ∧ t ≠ "" := by
  refine ⟨?_, h3⟩
  unfold translateAndEnhance
  rw [h1, h2]
  simp only [Bool.true_eq_false, if_false, if_neg h3]
  rcases h4 with h | h | h <;> simp [h]

/-- Closed witness for `enhancement_fallback`: a failing enhance request
falls back to the basic translation. -/
theorem enhancement_fallback_witness :
    translateAndEnhance ⟨true, some "hola"⟩ ⟨false, none⟩ = some "hola" ∧ "hola" ≠ "" :=
  enhancement_fallback ⟨true, some "hola"⟩ ⟨false, none⟩ "hola" rfl rfl
    (by decide) (Or.inl rfl)

/-- C8. Inbound transcript event handling: a partial result overwrites
`partialText` with the first alternative's transcript (the new value
does not depend on the old `partialText`); a final result with non-empty
trimmed text clears `partialText`, appends to `finalTranscripts` and
dispatches the pipeline as a pending task; and the handler never writes
`translations` itself — the dispatch is fire-and-forget, completion
happens in a later event-loop step. -/
theorem inbound_event_handling (s : SessionLists) (r : TResult) :
    (r.IsPartial = true → handleResult s r = { s with partialText := transcriptOf r }) ∧
    (r.IsPartial = false → jsTrim (transcriptOf r) ≠ "" →
      handleResult s r
        = { s with
              partialText := "",
              finalTranscripts := s.finalTranscripts ++ [transcriptOf r],
              pendingPipelines := s.pendingPipelines ++ [transcriptOf r] }) ∧
    (handleResult s r).translations = s.translations := by
  refine ⟨?_, ?_, ?_⟩
  · intro hp
    simp only [handleResult, if_pos hp]
  · intro hp ht
    simp only [handleResult, hp, Bool.false_eq_true, if_false, if_pos ht]
  · by_cases hp : r.IsPartial = true
    · simp only [handleResult, if_pos hp]
    · by_cases ht : jsTrim (transcriptOf r) ≠ ""
      · simp only [handleResult, if_neg hp, if_pos ht]
      · simp only [handleResult, if_neg hp, if_neg ht]

/-- Closed witness for `inbound_event_handling`: one partial and one
final result handled from the initial state. -/
theorem inbound_event_handling_witness :
    (handleResult initSession ⟨true, ["hi"]⟩
      = { initSession with partialText := transcriptOf ⟨true, ["hi"]⟩ }) ∧
    (handleResult initSession ⟨false, ["ok"]⟩
      = { initSession with
            partialText := "",
            finalTranscripts := initSession.finalTranscripts ++ [transcriptOf ⟨false, ["ok"]⟩],
            pendingPipelines := initSession.pendingPipelines ++ [transcriptOf ⟨false, ["ok"]⟩] }) :=
  ⟨(inbound_event_handling initSession ⟨true, ["hi"]⟩).1 rfl,
   (inbound_event_handling initSession ⟨false, ["ok"]⟩).2.1 rfl (by decide)⟩

/-- `maxReconnectAttempts = 5` of the documented `TranslationWebSocket`. -/
def maxReconnectAttempts : ℕ := 5

/-- `reconnectDelay = 1000` (ms), the backoff base. -/
def reconnectDelay : ℕ := 1000

/-- The reconnection bookkeeping of `TranslationWebSocket`: the number of
reconnection attempts made so far. -/
structure ReconnectState where
  reconnectAttempts : ℕ
deriving DecidableEq

/-- `handleReconnect()`: under the attempt cap, increment the counter and
schedule a reconnect after `reconnectDelay * 2 ^ (reconnectAttempts - 1)`
ms (post-increment value); at the cap, schedule nothing. Returns the new
state and the scheduled delay, `none` when no reconnect is scheduled. -/
def handleReconnect (s : ReconnectState) : ReconnectState × Option ℕ :=
  if s.reconnectAttempts < maxReconnectAttempts then
    let attempts := s.reconnectAttempts + 1
    (⟨attempts⟩, some (reconnectDelay * 2 ^ (attempts - 1)))
  else (s, none)

/-- C9. Diagnostic reconnection policy: when `attempt` attempts have been
made so far (`attempt < maxReconnectAttempts`), the next reconnection is
scheduled after `base * 2 ^ attempt` — attempt number `attempt + 1` in
the code's 1-based log numbering — the attempt counter is capped at
`maxReconnectAttempts`, and once the cap is reached no reconnect is
scheduled. -/
theorem reconnect_policy (s : ReconnectState) :
    (s.reconnectAttempts < maxReconnectAttempts →
      handleReconnect s
        = (⟨s.reconnectAttempts + 1⟩, some (reconnectDelay * 2 ^ s.reconnectAttempts))) ∧
    (maxReconnectAttempts ≤ s.reconnectAttempts → handleReconnect s = (s, none)) ∧
    (s.reconnectAttempts ≤ maxReconnectAttempts →
      (handleReconnect s).1.reconnectAttempts ≤ maxReconnectAttempts) := by
  refine ⟨?_, ?_, ?_⟩
  · intro h
    simp only [handleReconnect, if_pos h, Nat.add_sub_cancel]
  · intro h
    simp only [handleReconnect, if_neg (Nat.not_lt.mpr h)]
  · intro h
    unfold handleReconnect
    split
    · dsimp only
      omega
    · dsimp only
      omega

/-- Closed witness for `reconnect_policy`: the first attempt is scheduled
after `base * 2 ^ 0` ms, and at the cap nothing is scheduled. -/
theorem reconnect_policy_witness :
    (handleReconnect ⟨0⟩ = (⟨1⟩, some (reconnectDelay * 2 ^ 0))) ∧
    (handleReconnect ⟨5⟩ = (⟨5⟩, none)) :=
  ⟨(reconnect_policy ⟨0⟩).1 (by decide), (reconnect_policy ⟨5⟩).2.1 (by decide)⟩
